import Mathlib

/-!
Verification of the goreplace tool (src/main.go) against its specification.

Strings are modelled as lists of characters (`Str`).  The Go standard-library
string helpers used by the program (strings.TrimSpace, strings.HasPrefix,
strings.TrimPrefix, strings.Contains/Index, strings.Fields, strings.Split)
are embedded as structurally recursive Lean functions on `Str`, so that all
definitions evaluate inside the kernel.  Whitespace is modelled as the ASCII
whitespace characters (space, tab, carriage return, newline), which is the
fragment of Go's `unicode.IsSpace` exercised by manifests.

File-system effects (os.ReadFile, os.WriteFile, os.Rename, os.Stat) are
embedded with an explicit `World` state carrying the file contents and a
trace of the file operations performed; interactive selection and
confirmation are oracle parameters, following the specification, which
treats them as external collaborators of the core.
-/

/-- Strings are modelled as lists of characters. -/
abbrev Str := List Char

/-- ASCII whitespace, the fragment of Go's `unicode.IsSpace` relevant here. -/
def isWS (c : Char) : Bool := c.isWhitespace

/-- Go `strings.TrimSpace`, left half: drop leading whitespace. -/
def trimLeft (l : Str) : Str := l.dropWhile isWS

/-- Go `strings.TrimSpace`, right half: drop trailing whitespace. -/
def trimRight (l : Str) : Str := (l.reverse.dropWhile isWS).reverse

/-- Go `strings.TrimSpace`. -/
def trimSpace (l : Str) : Str := trimRight (trimLeft l)

/-- Go `strings.TrimPrefix`. -/
def trimPrefixStr (pre l : Str) : Str :=
  if pre.isPrefixOf l then l.drop pre.length else l

/-- Go `strings.Index` for a substring pattern: index of the first
occurrence of `pat` in `s`, or `none`. -/
def indexOfSubstr (pat : Str) : Str → Option Nat
  | [] => if pat.isPrefixOf ([] : Str) then some 0 else none
  | c :: t =>
    if pat.isPrefixOf (c :: t) then some 0
    else (indexOfSubstr pat t).map (· + 1)

/-- Go `strings.Contains s pat`. -/
def containsSub (s pat : Str) : Bool := (indexOfSubstr pat s).isSome

/-- Worker for `splitOnSub`: `cur` is the current piece (reversed), the
`Nat` counts characters still to be skipped as part of a matched
separator. -/
def splitOnSubAux (sep : Str) : Str → Str → Nat → List Str
  | cur, [], _ => [cur.reverse]
  | cur, _ :: t, Nat.succ n => splitOnSubAux sep cur t n
  | cur, c :: t, 0 =>
    if sep.isPrefixOf (c :: t) then
      cur.reverse :: splitOnSubAux sep [] t (sep.length - 1)
    else splitOnSubAux sep (c :: cur) t 0

/-- Go `strings.Split s sep` (for empty `sep`, Go splits into runes). -/
def splitOnSub (sep s : Str) : List Str :=
  if sep.isEmpty then s.map (fun c => [c]) else splitOnSubAux sep [] s 0

/-- Worker for `fields`: `cur` is the current word (reversed). -/
def fieldsAux : Str → Str → List Str
  | cur, [] => if cur.isEmpty then [] else [cur.reverse]
  | cur, c :: t =>
    if isWS c then
      if cur.isEmpty then fieldsAux [] t else cur.reverse :: fieldsAux [] t
    else fieldsAux (c :: cur) t

/-- Go `strings.Fields`: split on whitespace runs, dropping empty words. -/
def fields (l : Str) : List Str := fieldsAux [] l

/-- Go `strings.Split content "\n"`. -/
def splitLines : Str → List Str
  | [] => [[]]
  | c :: t =>
    if c = '\n' then [] :: splitLines t
    else
      match splitLines t with
      | [] => [[c]]
      | l :: ls => (c :: l) :: ls

/-- The literal `"require ("`. -/
def requireParenL : Str := ['r', 'e', 'q', 'u', 'i', 'r', 'e', ' ', '(']

/-- The literal `"require "`. -/
def requireSpL : Str := ['r', 'e', 'q', 'u', 'i', 'r', 'e', ' ']

/-- The literal `"replace "`. -/
def replaceSpL : Str := ['r', 'e', 'p', 'l', 'a', 'c', 'e', ' ']

/-- The literal `")"`. -/
def closeParenL : Str := [')']

/-- The literal `"=>"`. -/
def sepEqGtL : Str := ['=', '>']

/-- The literal `"//"`. -/
def slashSlashL : Str := ['/', '/']

/-- The literal `"indirect"`. -/
def indirectL : Str := ['i', 'n', 'd', 'i', 'r', 'e', 'c', 't']

/-- The literal `"go.mod"`. -/
def goModPath : Str := ['g', 'o', '.', 'm', 'o', 'd']

/-- The literal `"go.mod.tmp"`. -/
def goModTmpPath : Str := ['g', 'o', '.', 'm', 'o', 'd', '.', 't', 'm', 'p']

/-- The literal `"src"`. -/
def srcL : Str := ['s', 'r', 'c']

/-- The literal `"local copy not found: tried "`. -/
def notFoundMsgL : Str :=
  ['l', 'o', 'c', 'a', 'l', ' ', 'c', 'o', 'p', 'y', ' ', 'n', 'o', 't', ' ',
   'f', 'o', 'u', 'n', 'd', ':', ' ', 't', 'r', 'i', 'e', 'd', ' ']

/-- The literal `" and "`. -/
def andSepL : Str := [' ', 'a', 'n', 'd', ' ']

/-- The literal `" => "`. -/
def spEqGtSpL : Str := [' ', '=', '>', ' ']

/-- A dependency record parsed from a require line (Go `Dependency`). -/
structure Dependency where
  Path : Str
  Version : Str
deriving DecidableEq

/-- State threaded through `parseGoMod`'s line loop:  the dependency list,
the replaced-path set (Go `map[string]bool`, modelled as a list with
membership), and the `inRequire` flag. -/
structure ParseState where
  dependencies : List Dependency
  replaces : List Str
  inRequire : Bool
deriving DecidableEq

/-- Go `parseRequireLine`: skip lines containing `indirect`, strip a
trailing `//` comment, split on whitespace, require two tokens. -/
def parseRequireLine (line : Str) : Option Dependency :=
  if containsSub line indirectL then none
  else
    let line2 :=
      match indexOfSubstr slashSlashL line with
      | some idx => trimSpace (line.take idx)
      | none => line
    match fields line2 with
    | path :: ver :: _ => some ⟨path, ver⟩
    | _ => none

/-- Go `extractReplacePath`: split on `=>`, and if two parts exist return
the left part with the `replace ` prefix and whitespace trimmed. -/
def extractReplacePath (line : Str) : Str :=
  let parts := splitOnSub sepEqGtL line
  if parts.length < 2 then []
  else trimSpace (trimPrefixStr replaceSpL (parts.headD []))

/-- One iteration of the line loop of Go `parseGoMod` (the `switch`). -/
def processLine (st : ParseState) (rawLine : Str) : ParseState :=
  let line := trimSpace rawLine
  if line.isEmpty then st
  else if requireParenL.isPrefixOf line then { st with inRequire := true }
  else if requireSpL.isPrefixOf line && !st.inRequire then
    match parseRequireLine (trimPrefixStr requireSpL line) with
    | some dep => { st with dependencies := st.dependencies ++ [dep] }
    | none => st
  else if st.inRequire && line == closeParenL then { st with inRequire := false }
  else if st.inRequire then
    match parseRequireLine line with
    | some dep => { st with dependencies := st.dependencies ++ [dep] }
    | none => st
  else if replaceSpL.isPrefixOf line then
    let path := extractReplacePath line
    if path.isEmpty then st else { st with replaces := st.replaces.insert path }
  else st

/-- The initial state of `parseGoMod`'s loop. -/
def initState : ParseState := ⟨[], [], false⟩

/-- Go `parseGoMod`: fold the line loop over the lines of the content. -/
def parseGoMod (content : Str) : List Dependency × List Str :=
  let st := (splitLines content).foldl processLine initState
  (st.dependencies, st.replaces)

/-- Go `filterDependencies`: keep paths not already replaced that contain
the partial name as a substring, in order. -/
def filterDependencies (deps : List Dependency) (replaces : List Str)
    (partialName : Str) : List Str :=
  match deps with
  | [] => []
  | dep :: rest =>
    if replaces.contains dep.Path then filterDependencies rest replaces partialName
    else if containsSub dep.Path partialName then
      dep.Path :: filterDependencies rest replaces partialName
    else filterDependencies rest replaces partialName

/-- Go `removeVersionFromPath`: the regex `(/v\d+)$` replaced by the empty
string, i.e. strip one trailing `/v<digits>` segment if present. -/
def removeVersionFromPath (path : Str) : Str :=
  let rev := path.reverse
  match rev.takeWhile Char.isDigit, rev.dropWhile Char.isDigit with
  | _ :: _, 'v' :: '/' :: rem => rem.reverse
  | _, _ => path

/-- Go `filepath.Join` of two clean components, modelled as slash-separated
concatenation. -/
def joinPath (a b : Str) : Str := a ++ '/' :: b

/-- Go `findLocalPath`: probe `<gopath>/src/<modulePath>`, then the
version-stripped variant, else fail naming both probed paths.  The
filesystem probe `os.Stat` is the boolean oracle `statOk`. -/
def findLocalPath (gopath : Str) (statOk : Str → Bool) (modulePath : Str) :
    Except Str Str :=
  let originalPath := joinPath (joinPath gopath srcL) modulePath
  if statOk originalPath then Except.ok originalPath
  else
    let basePath := removeVersionFromPath modulePath
    let versionlessPath := joinPath (joinPath gopath srcL) basePath
    if basePath ≠ modulePath && statOk versionlessPath then Except.ok versionlessPath
    else Except.error (notFoundMsgL ++ originalPath ++ andSepL ++ versionlessPath)

/-- The directive text appended by Go `replaceInGoMod`:
`"\nreplace " + module + " => " + localPath + "\n"`. -/
def replaceDirective (module localPath : Str) : Str :=
  '\n' :: replaceSpL ++ module ++ spEqGtSpL ++ localPath ++ ['\n']

/-- The pure content transformation of Go `replaceInGoMod`: the original
content with the replace directive appended. -/
def applyReplaceText (content module localPath : Str) : Str :=
  content ++ replaceDirective module localPath

/-- A file operation performed by the program, recorded in the trace. -/
inductive FileOp where
  | readF (path : Str)
  | writeF (path : Str) (content : Str)
  | renameF (src dst : Str)
deriving DecidableEq

/-- The file-system state: contents by path, failure oracles for write and
rename, and the trace of operations performed so far. -/
structure World where
  files : List (Str × Str)
  writeFails : Bool
  renameFails : Bool
  trace : List FileOp
deriving DecidableEq

/-- Remove a path's entry from the file table. -/
def removeFile (fs : List (Str × Str)) (p : Str) : List (Str × Str) :=
  fs.filter (fun e => !(e.1 == p))

/-- Set a path's content in the file table. -/
def setFile (fs : List (Str × Str)) (p c : Str) : List (Str × Str) :=
  (p, c) :: removeFile fs p

/-- Error text of a failed read (stands for the OS error). -/
def noSuchFileL : Str := ['n', 'o', ' ', 's', 'u', 'c', 'h', ' ', 'f', 'i', 'l', 'e']

/-- Error text of a failed write (stands for the OS error). -/
def writeErrL : Str := ['w', 'r', 'i', 't', 'e', ' ', 'e', 'r', 'r', 'o', 'r']

/-- Error text of a failed rename (stands for the OS error). -/
def renameErrL : Str := ['r', 'e', 'n', 'a', 'm', 'e', ' ', 'e', 'r', 'r', 'o', 'r']

/-- Go wrapper text `"failed to read go.mod: "`. -/
def failedReadL : Str :=
  ['f', 'a', 'i', 'l', 'e', 'd', ' ', 't', 'o', ' ', 'r', 'e', 'a', 'd', ' ',
   'g', 'o', '.', 'm', 'o', 'd', ':', ' ']

/-- Go wrapper text `"failed to write temp file: "`. -/
def failedWriteTmpL : Str :=
  ['f', 'a', 'i', 'l', 'e', 'd', ' ', 't', 'o', ' ', 'w', 'r', 'i', 't', 'e',
   ' ', 't', 'e', 'm', 'p', ' ', 'f', 'i', 'l', 'e', ':', ' ']

/-- Go wrapper text `"failed to rename temp file: "`. -/
def failedRenameL : Str :=
  ['f', 'a', 'i', 'l', 'e', 'd', ' ', 't', 'o', ' ', 'r', 'e', 'n', 'a', 'm',
   'e', ' ', 't', 'e', 'm', 'p', ' ', 'f', 'i', 'l', 'e', ':', ' ']

/-- Go wrapper text `"error reading go.mod: "` (printed by `main`). -/
def errorReadingL : Str :=
  ['e', 'r', 'r', 'o', 'r', ' ', 'r', 'e', 'a', 'd', 'i', 'n', 'g', ' ',
   'g', 'o', '.', 'm', 'o', 'd', ':', ' ']

/-- `os.ReadFile`: look the path up, recording the read in the trace. -/
def readFileW (path : Str) (w : World) : Except Str Str × World :=
  let w2 := { w with trace := w.trace ++ [FileOp.readF path] }
  match w.files.lookup path with
  | some c => (Except.ok c, w2)
  | none => (Except.error noSuchFileL, w2)

/-- `os.WriteFile`: set the path's content unless the write oracle fails,
recording the write in the trace. -/
def writeFileW (path content : Str) (w : World) : Except Str Unit × World :=
  let w2 := { w with trace := w.trace ++ [FileOp.writeF path content] }
  if w.writeFails then (Except.error writeErrL, w2)
  else (Except.ok (), { w2 with files := setFile w.files path content })

/-- `os.Rename`: move the source entry over the destination unless the
rename oracle fails, recording the rename in the trace. -/
def renameFileW (src dst : Str) (w : World) : Except Str Unit × World :=
  let w2 := { w with trace := w.trace ++ [FileOp.renameF src dst] }
  if w.renameFails then (Except.error renameErrL, w2)
  else
    match w.files.lookup src with
    | none => (Except.error renameErrL, w2)
    | some c =>
      (Except.ok (), { w2 with files := setFile (removeFile w.files src) dst c })

/-- Go `replaceInGoMod`: read go.mod, write the appended content to
go.mod.tmp, rename go.mod.tmp over go.mod. -/
def replaceInGoMod (module localPath : Str) (w : World) :
    Except Str Unit × World :=
  match readFileW goModPath w with
  | (Except.error e, w1) => (Except.error (failedReadL ++ e), w1)
  | (Except.ok content, w1) =>
    match writeFileW goModTmpPath (applyReplaceText content module localPath) w1 with
    | (Except.error e, w2) => (Except.error (failedWriteTmpL ++ e), w2)
    | (Except.ok _, w2) =>
      match renameFileW goModTmpPath goModPath w2 with
      | (Except.error e, w3) => (Except.error (failedRenameL ++ e), w3)
      | (Except.ok _, w3) => (Except.ok (), w3)

/-- The observable outcome of an invocation of `main` past argument
handling. -/
inductive Outcome where
  | noMatches
  | canceled
  | success (module localPath : Str)
  | failure (msg : Str)
deriving DecidableEq

/-- The body of Go `main` from the manifest read onward.  Interactive
selection and confirmation are oracle parameters (`select`,
`confirmAnswer`), as is the `os.Stat` probe (`statOk`) and `GOPATH`
(`gopath`), matching the specification's treatment of prompt I/O and the
environment as external collaborators. -/
def mainRun (partialName gopath : Str) (statOk : Str → Bool)
    (select : List Str → Except Str Str) (confirmAnswer : Bool)
    (w : World) : Outcome × World :=
  match readFileW goModPath w with
  | (Except.error e, w1) => (Outcome.failure (errorReadingL ++ e), w1)
  | (Except.ok modContent, w1) =>
    let pr := parseGoMod modContent
    let matched := filterDependencies pr.1 pr.2 partialName
    if matched.isEmpty then (Outcome.noMatches, w1)
    else
      match select matched with
      | Except.error e => (Outcome.failure e, w1)
      | Except.ok selected =>
        if !confirmAnswer then (Outcome.canceled, w1)
        else
          match findLocalPath gopath statOk selected with
          | Except.error e => (Outcome.failure e, w1)
          | Except.ok localPath =>
            match replaceInGoMod selected localPath w1 with
            | (Except.error e, w2) => (Outcome.failure e, w2)
            | (Except.ok _, w2) => (Outcome.success selected localPath, w2)

/-- The require-line parser as described by claim C2: first strip the
trailing comment, then skip the line if the remaining text contains
`indirect`, then split on whitespace and require two tokens. -/
def parseRequireLineSpecC2 (line : Str) : Option Dependency :=
  let line2 :=
    match indexOfSubstr slashSlashL line with
    | some idx => trimSpace (line.take idx)
    | none => line
  if containsSub line2 indirectL then none
  else
    match fields line2 with
    | path :: ver :: _ => some ⟨path, ver⟩
    | _ => none

/-- Concrete manifest whose `replace A => B` line sits inside a require
block: `"require (\nreplace A => B\n)\nrequire A v1.0.0"`. -/
def exReplaceInBlockText : Str :=
  requireParenL ++ '\n' :: replaceSpL ++ ['A', ' ', '=', '>', ' ', 'B'] ++
  '\n' :: closeParenL ++ '\n' :: requireSpL ++ ['A', ' ', 'v', '1', '.', '0', '.', '0']

/-- Concrete manifest consisting of an unclosed require-block opener. -/
def exOpenBlockText : Str := requireParenL

/-- Concrete require line with `indirect` inside the trailing comment:
`"foo v1.0.0 // indirect"`. -/
def exIndirectLine : Str :=
  ['f', 'o', 'o', ' ', 'v', '1', '.', '0', '.', '0', ' ', '/', '/', ' '] ++ indirectL

/-- Concrete one-dependency manifest `"require foo v1"`. -/
def exSimpleManifest : Str := requireSpL ++ ['f', 'o', 'o', ' ', 'v', '1']

/-- Concrete world holding only `go.mod` with `exSimpleManifest`. -/
def exWorld : World := ⟨[(goModPath, exSimpleManifest)], false, false, []⟩

/-- Concrete world whose write oracle fails. -/
def exWorldWriteFails : World := ⟨[(goModPath, ['x'])], true, false, []⟩

/-- Concrete world for exercising the writer. -/
def exWorldSmall : World := ⟨[(goModPath, ['x'])], false, false, []⟩

/-- A concrete complete run of `main` on `exWorld`: partial name `foo`,
root `/g`, every probe succeeding, first match selected, confirmed. -/
def exMainRun : Outcome × World :=
  mainRun ['f', 'o', 'o'] ['/', 'g'] (fun _ => true)
    (fun m => Except.ok (m.headD [])) true exWorld
/-- `containsSub` on a cons unfolds to a prefix test or containment in the
tail. -/
theorem containsSub_cons (c : Char) (t pat : Str) :
    containsSub (c :: t) pat = (pat.isPrefixOf (c :: t) || containsSub t pat) := by
  simp only [containsSub, indexOfSubstr]
  by_cases h : pat.isPrefixOf (c :: t) <;> simp [h, Option.isSome_map]

/-- `containsSub s pat` holds exactly when `pat` occurs in `s`. -/
theorem containsSub_eq_true_iff (s pat : Str) :
    containsSub s pat = true ↔ pat <:+: s := by
  induction s with
  | nil =>
    simp only [containsSub, indexOfSubstr]
    constructor
    · intro h
      by_cases hp : pat.isPrefixOf ([] : Str)
      · have := List.isPrefixOf_iff_prefix.mp hp
        simpa using this.isInfix
      · simp [hp] at h
    · intro h
      have : pat = [] := by simpa using h
      subst this
      simp [ List.isPrefixOf]
  | cons c t ih =>
    rw [containsSub_cons]
    constructor
    · intro h
      rcases Bool.or_eq_true_iff.mp h with h | h
      · exact (List.isPrefixOf_iff_prefix.mp h).isInfix
      · exact (ih.mp h).trans (List.infix_cons (List.infix_refl t))
    · intro h
      rcases List.infix_cons_iff.mp h with h | h
      · exact Bool.or_eq_true_iff.mpr (Or.inl (List.isPrefixOf_iff_prefix.mpr h))
      · exact Bool.or_eq_true_iff.mpr (Or.inr (ih.mpr h))

/-- The empty pattern occurs in every string. -/
theorem containsSub_nil_pat (s : Str) : containsSub s [] = true :=
  (containsSub_eq_true_iff s []).mpr List.nil_infix

/-- Dropping a prefix along a predicate preserves occurrences whose first
character refutes the predicate. -/
theorem infix_dropWhile_of_head {p : Char → Bool} {a : Char} {pr l : Str}
    (ha : p a = false) (h : (a :: pr) <:+: l) : (a :: pr) <:+: l.dropWhile p := by
  induction l with
  | nil => simp at h
  | cons c t ih =>
    rcases List.infix_cons_iff.mp h with h | h
    · obtain ⟨hac, -⟩ := List.cons_prefix_cons.mp h
      have hc : p c = false := hac ▸ ha
      rw [ List.dropWhile_cons, hc]
      simpa using h.isInfix
    · by_cases hc : p c
      · rw [ List.dropWhile_cons, if_pos hc]
        exact ih h
      · rw [ List.dropWhile_cons, if_neg (by simp [hc])]
        exact h.trans (List.infix_cons (List.infix_refl t))

/-- An occurrence of `indirect` survives `trimSpace`. -/
theorem indirect_infix_trimSpace {l : Str} (h : indirectL <:+: l) :
    indirectL <:+: trimSpace l := by
  have h1 : indirectL <:+: trimLeft l := by
    have h0 := @infix_dropWhile_of_head isWS 'i' ['n', 'd', 'i', 'r', 'e', 'c', 't']
      l (by decide) h
    simpa [trimLeft, indirectL] using h0
  have h2 : indirectL.reverse <:+: (trimLeft l).reverse := List.reverse_infix.mpr h1
  have h3 : indirectL.reverse <:+: ((trimLeft l).reverse.dropWhile isWS) := by
    have h0 := @infix_dropWhile_of_head isWS 't' ['c', 'e', 'r', 'i', 'd', 'n', 'i']
      (trimLeft l).reverse (by decide) (by simpa [indirectL] using h2)
    simpa [indirectL] using h0
  have h4 := List.reverse_infix.mpr h3
  simpa [trimSpace, trimRight] using h4
/-- An occurrence of `indirect` in `"require " ++ rest` lies inside `rest`. -/
theorem indirect_infix_drop_requireSp {rest : Str}
    (h : indirectL <:+: requireSpL ++ rest) : indirectL <:+: rest := by
  have hi : indirectL = 'i' :: 'n' :: 'd' :: 'i' :: 'r' :: 'e' :: 'c' :: 't' :: [] := rfl
  simp only [requireSpL, List.cons_append, List.nil_append] at h
  rcases List.infix_cons_iff.mp h with hp | h
  · rw [hi] at hp; exact absurd (List.cons_prefix_cons.mp hp).1 (by decide)
  rcases List.infix_cons_iff.mp h with hp | h
  · rw [hi] at hp; exact absurd (List.cons_prefix_cons.mp hp).1 (by decide)
  rcases List.infix_cons_iff.mp h with hp | h
  · rw [hi] at hp; exact absurd (List.cons_prefix_cons.mp hp).1 (by decide)
  rcases List.infix_cons_iff.mp h with hp | h
  · rw [hi] at hp; exact absurd (List.cons_prefix_cons.mp hp).1 (by decide)
  rcases List.infix_cons_iff.mp h with hp | h
  · rw [hi] at hp
    obtain ⟨-, hp2⟩ := List.cons_prefix_cons.mp hp
    exact absurd (List.cons_prefix_cons.mp hp2).1 (by decide)
  rcases List.infix_cons_iff.mp h with hp | h
  · rw [hi] at hp; exact absurd (List.cons_prefix_cons.mp hp).1 (by decide)
  rcases List.infix_cons_iff.mp h with hp | h
  · rw [hi] at hp; exact absurd (List.cons_prefix_cons.mp hp).1 (by decide)
  rcases List.infix_cons_iff.mp h with hp | h
  · rw [hi] at hp; exact absurd (List.cons_prefix_cons.mp hp).1 (by decide)
  exact h

/-- `splitLines` never returns the empty list. -/
theorem splitLines_ne_nil (s : Str) : splitLines s ≠ [] := by
  induction s with
  | nil => simp [splitLines]
  | cons c t ih =>
    simp only [splitLines]
    split
    · simp
    · split <;> simp

/-- Splitting at a separator distributes over the surrounding pieces. -/
theorem splitLines_append_sep (xs ys : Str) :
    splitLines (xs ++ '\n' :: ys) = splitLines xs ++ splitLines ys := by
  induction xs with
  | nil => simp [splitLines]
  | cons c t ih =>
    by_cases hc : c = '\n'
    · subst hc
      simp [splitLines, ih]
    · simp only [List.cons_append, splitLines, hc, if_false, List.append_eq]
      cases h : splitLines t with
      | nil => exact absurd h (splitLines_ne_nil t)
      | cons l ls =>
        rw [ih, h]
        rfl

/-- A separator-free string is a single line. -/
theorem splitLines_no_sep {s : Str} (h : '\n' ∉ s) : splitLines s = [s] := by
  induction s with
  | nil => simp [splitLines]
  | cons c t ih =>
    have hc : c ≠ '\n' := fun e => h (e ▸ List.mem_cons_self c t)
    have ht : '\n' ∉ t := fun m => h (List.mem_cons_of_mem _ m)
    simp [splitLines, hc, ih ht]

/-- The line loop only ever grows the replaced-set. -/
theorem processLine_replaces_subset (st : ParseState) (raw : Str) :
    st.replaces ⊆ (processLine st raw).replaces := by
  intro x hx
  simp only [processLine]
  repeat' split
  all_goals first
  | exact hx
  | exact List.mem_insert_iff.mpr (Or.inr hx)

/-- Folding the line loop only ever grows the replaced-set. -/
theorem foldl_replaces_subset (raws : List Str) (st : ParseState) :
    st.replaces ⊆ (raws.foldl processLine st).replaces := by
  induction raws generalizing st with
  | nil => exact fun x hx => hx
  | cons r rs ih =>
    intro x hx
    rw [ List.foldl_cons]
    exact ih (processLine st r) (processLine_replaces_subset st r hx)

/-- `List.contains` agrees with membership for our strings. -/
theorem containsL_iff_mem {l : List Str} {p : Str} : l.contains p = true ↔ p ∈ l :=
  List.elem_iff

/-- The filter is the pointwise filter of the record paths: keep exactly the
paths not already replaced that contain the partial name, in order. -/
theorem filterDependencies_eq (deps : List Dependency) (reps : List Str) (q : Str) :
    filterDependencies deps reps q =
      (deps.map Dependency.Path).filter (fun p => !reps.contains p && containsSub p q) := by
  induction deps with
  | nil => rfl
  | cons d rest ih =>
    by_cases h1 : d.Path ∈ reps
    · simp [filterDependencies, List.filter_cons, containsL_iff_mem.mpr h1, h1, ih]
    · have h1' : reps.contains d.Path = false := by
        cases hcon : reps.contains d.Path
        · rfl
        · exact absurd (containsL_iff_mem.mp hcon) h1
      by_cases h2 : containsSub d.Path q
      · simp [filterDependencies, List.filter_cons, h1, h1', h2, ih]
      · simp [filterDependencies, List.filter_cons, h1, h1', h2, ih]

/-- Membership in the filter output, characterised. -/
theorem mem_filterDependencies_iff (deps : List Dependency) (reps : List Str)
    (q p : Str) :
    p ∈ filterDependencies deps reps q ↔
      (∃ d ∈ deps, d.Path = p) ∧ p ∉ reps ∧ q <:+: p := by
  rw [filterDependencies_eq]
  simp only [ List.mem_filter, List.mem_map, Bool.and_eq_true, Bool.not_eq_true',
    containsSub_eq_true_iff]
  constructor
  · rintro ⟨⟨d, hd, rfl⟩, hc, hq⟩
    refine ⟨⟨d, hd, rfl⟩, ?_, hq⟩
    intro hm
    rw [containsL_iff_mem.mpr hm] at hc
    cases hc
  · rintro ⟨⟨d, hd, rfl⟩, hm, hq⟩
    refine ⟨⟨d, hd, rfl⟩, ?_, hq⟩
    cases hcon : reps.contains d.Path
    · rfl
    · exact absurd (containsL_iff_mem.mp hcon) hm
/-- A boolean prefix test yields an explicit decomposition. -/
theorem exists_rest_of_isPrefixOf {pre l : Str} (h : pre.isPrefixOf l = true) :
    ∃ rest, l = pre ++ rest := by
  obtain ⟨t, ht⟩ := List.isPrefixOf_iff_prefix.mp h
  exact ⟨t, ht.symm⟩

/-- A `replace `-headed line is not empty. -/
theorem repl_isEmpty_false (rest : Str) : (replaceSpL ++ rest).isEmpty = false := rfl

/-- A `replace `-headed line does not start with `require (`. -/
theorem requireParen_not_pre_repl (rest : Str) :
    requireParenL.isPrefixOf (replaceSpL ++ rest) = false := rfl

/-- A `replace `-headed line does not start with `require `. -/
theorem requireSp_not_pre_repl (rest : Str) :
    requireSpL.isPrefixOf (replaceSpL ++ rest) = false := rfl

/-- A `replace `-headed line starts with `replace `. -/
theorem repl_pre_repl (rest : Str) :
    replaceSpL.isPrefixOf (replaceSpL ++ rest) = true :=
  List.isPrefixOf_iff_prefix.mpr (List.prefix_append _ _)

/-- A `replace `-headed line is not the block terminator `)`. -/
theorem repl_ne_close (rest : Str) : ((replaceSpL ++ rest) == closeParenL) = false := rfl

/-- A `require `-headed line starts with `require `. -/
theorem requireSp_pre_requireSp (rest : Str) :
    requireSpL.isPrefixOf (requireSpL ++ rest) = true :=
  List.isPrefixOf_iff_prefix.mpr (List.prefix_append _ _)

/-- A line containing `indirect` yields no record. -/
theorem parseRequireLine_indirect {line : Str}
    (h : containsSub line indirectL = true) : parseRequireLine line = none := by
  simp [parseRequireLine, h]

/-- Outside a require block, a `replace `-headed line with a nonempty
extracted path inserts that path into the replaced-set. -/
theorem processLine_replace (st : ParseState) (raw : Str)
    (h1 : st.inRequire = false)
    (h2 : replaceSpL.isPrefixOf (trimSpace raw) = true)
    (h3 : extractReplacePath (trimSpace raw) ≠ []) :
    (processLine st raw).replaces =
      st.replaces.insert (extractReplacePath (trimSpace raw)) := by
  obtain ⟨rest, hrest⟩ := exists_rest_of_isPrefixOf h2
  have h3' : (extractReplacePath (replaceSpL ++ rest)).isEmpty = false := by
    cases he : (extractReplacePath (replaceSpL ++ rest)).isEmpty
    · rfl
    · rw [hrest] at h3
      exact absurd (List.isEmpty_iff.mp he) h3
  simp only [processLine]
  rw [hrest]
  simp [repl_isEmpty_false, requireParen_not_pre_repl, requireSp_not_pre_repl,
    repl_pre_repl, repl_ne_close, h1, h3']

/-- Processing any line that contains `indirect` leaves the dependency list
unchanged, whatever the parser state. -/
theorem processLine_indirect_deps (st : ParseState) (raw : Str)
    (h : containsSub raw indirectL = true) :
    (processLine st raw).dependencies = st.dependencies := by
  have hinf : indirectL <:+: raw := (containsSub_eq_true_iff raw indirectL).mp h
  have htrim : containsSub (trimSpace raw) indirectL = true :=
    (containsSub_eq_true_iff _ _).mpr (indirect_infix_trimSpace hinf)
  simp only [processLine]
  split
  · rfl
  split
  · rfl
  split
  · rename_i hcond
    have hpre : requireSpL.isPrefixOf (trimSpace raw) = true :=
      (Bool.and_eq_true_iff.mp hcond).1
    obtain ⟨rest, hrest⟩ := exists_rest_of_isPrefixOf hpre
    have hrest2 : containsSub rest indirectL = true := by
      apply (containsSub_eq_true_iff _ _).mpr
      apply indirect_infix_drop_requireSp
      rw [← hrest]
      exact (containsSub_eq_true_iff _ _).mp htrim
    have hdrop : trimPrefixStr requireSpL (trimSpace raw) = rest := by
      rw [hrest]
      simp [trimPrefixStr, requireSp_pre_requireSp, List.drop_left]
    rw [hdrop, parseRequireLine_indirect hrest2]
  split
  · rfl
  split
  · rw [parseRequireLine_indirect htrim]
  split
  · split
    · rfl
    · rfl
  · rfl
/-- The empty pattern is a prefix of every string (boolean form). -/
theorem isPrefixOf_nil_left (l : Str) : (([] : Str).isPrefixOf l) = true := by
  cases l <;> rfl

/-- Whether `=>` starts a two-character-headed string ignores the tail. -/
theorem sep_isPrefixOf_cons_cons (c d : Char) (y z : Str) :
    sepEqGtL.isPrefixOf (c :: d :: y) = sepEqGtL.isPrefixOf (c :: d :: z) := by
  simp [sepEqGtL, List.isPrefixOf, isPrefixOf_nil_left]

/-- `splitOnSubAux` never returns the empty list. -/
theorem splitOnSubAux_ne_nil (sep : Str) (s : Str) :
    ∀ cur n, splitOnSubAux sep cur s n ≠ [] := by
  induction s with
  | nil => intro cur n; simp [splitOnSubAux]
  | cons c t ih =>
    intro cur n
    cases n with
    | zero =>
      simp only [splitOnSubAux]
      split
      · simp
      · exact ih _ _
    | succ m => exact ih _ _

/-- Splitting on `=>` at an explicit separator occurrence, when the part
before it is free of `=>`. -/
theorem splitOnSubAux_boundary (post : Str) :
    ∀ (pre cur : Str), containsSub pre sepEqGtL = false →
      splitOnSubAux sepEqGtL cur (pre ++ '=' :: '>' :: post) 0 =
        (cur.reverse ++ pre) :: splitOnSubAux sepEqGtL [] post 0 := by
  intro pre
  induction pre with
  | nil =>
    intro cur h
    have hpre : sepEqGtL.isPrefixOf ('=' :: '>' :: post) = true :=
      List.isPrefixOf_iff_prefix.mpr (List.prefix_append sepEqGtL post)
    have hskip : splitOnSubAux sepEqGtL [] ('>' :: post) (sepEqGtL.length - 1) =
        splitOnSubAux sepEqGtL [] post 0 := rfl
    simp only [List.nil_append, splitOnSubAux, hpre, if_true, hskip]
    simp
  | cons c pre' ih =>
    intro cur h
    rw [containsSub_cons] at h
    have hp : sepEqGtL.isPrefixOf (c :: pre') = false := (Bool.or_eq_false_iff.mp h).1
    have hc : containsSub pre' sepEqGtL = false := (Bool.or_eq_false_iff.mp h).2
    have hp2 : sepEqGtL.isPrefixOf (c :: (pre' ++ '=' :: '>' :: post)) = false := by
      cases pre' with
      | nil => simp [sepEqGtL, List.isPrefixOf]
      | cons d pre'' =>
        rw [List.cons_append]
        rw [sep_isPrefixOf_cons_cons c d (pre'' ++ '=' :: '>' :: post) pre'']
        exact hp
    rw [List.cons_append]
    simp only [splitOnSubAux, hp2, if_false]
    rw [ih (c :: cur) hc]
    simp

/-- `splitOnSub` on a string of the shape `pre ++ "=>" ++ post` with `pre`
free of `=>`: the first part is `pre`. -/
theorem splitOnSub_boundary {pre post : Str} (h : containsSub pre sepEqGtL = false) :
    splitOnSub sepEqGtL (pre ++ '=' :: '>' :: post) =
      pre :: splitOnSubAux sepEqGtL [] post 0 := by
  simp only [splitOnSub]
  rw [if_neg (by simp [sepEqGtL])]
  rw [splitOnSubAux_boundary post pre [] h]
  simp

/-- A two-character pattern occurring in an append occurs in one side or
straddles the boundary. -/
theorem infix_pair_append {a b : Char} {xs ys : Str} (h : [a, b] <:+: xs ++ ys) :
    [a, b] <:+: xs ∨ [a, b] <:+: ys ∨ (xs.getLast? = some a ∧ ys.head? = some b) := by
  induction xs with
  | nil => exact Or.inr (Or.inl (by simpa using h))
  | cons x xs' ih =>
    rw [List.cons_append] at h
    rcases List.infix_cons_iff.mp h with hp | h2
    · obtain ⟨hax, hp2⟩ := List.cons_prefix_cons.mp hp
      cases xs' with
      | nil =>
        cases ys with
        | nil => simp at hp2
        | cons y ys' =>
          have hby : b = y := by simpa using hp2
          exact Or.inr (Or.inr ⟨by simp [hax], by simp [hby]⟩)
      | cons x2 xs'' =>
        have hbx2 : b = x2 := by simpa using hp2
        left
        have hpref : ([a, b] : Str) <+: x :: x2 :: xs'' :=
          List.cons_prefix_cons.mpr ⟨hax, List.cons_prefix_cons.mpr ⟨hbx2, List.nil_prefix⟩⟩
        exact hpref.isInfix
    · rcases ih h2 with h3 | h3 | ⟨h3, h4⟩
      · exact Or.inl (h3.trans (List.infix_cons (List.infix_refl _)))
      · exact Or.inr (Or.inl h3)
      · refine Or.inr (Or.inr ⟨?_, h4⟩)
        cases xs' with
        | nil => simp at h3
        | cons z zs => rw [List.getLast?_cons_cons]; exact h3

/-- Dropping a prefix along a predicate stops at a refuting element. -/
theorem dropWhile_append_shape {p : Char → Bool} {b : Char} (hb : p b = false)
    (as bs : Str) : ∃ as2, List.dropWhile p (as ++ b :: bs) = as2 ++ b :: bs := by
  induction as with
  | nil => exact ⟨[], by simp [ List.dropWhile_cons, hb]⟩
  | cons a as' ih =>
    by_cases ha : p a
    · obtain ⟨as2, h2⟩ := ih
      exact ⟨as2, by simp [ List.dropWhile_cons, ha, h2]⟩
    · exact ⟨a :: as', by simp [ List.dropWhile_cons, ha]⟩

/-- Right-trimming keeps everything up to and including a non-whitespace
character. -/
theorem trimRight_append_shape (X Y : Str) :
    ∃ Z, trimRight (X ++ '>' :: Y) = X ++ '>' :: Z := by
  obtain ⟨as2, h⟩ :=
    dropWhile_append_shape (p := isWS) (b := '>') (by decide) Y.reverse X.reverse
  refine ⟨as2.reverse, ?_⟩
  have hrev : (X ++ '>' :: Y).reverse = Y.reverse ++ '>' :: X.reverse := by
    simp [List.reverse_append]
  rw [trimRight, hrev, h, List.reverse_append]
  simp
/-- A string unchanged by `trimSpace` does not start with whitespace. -/
theorem head_not_ws_of_trimSpace_self {a : Char} {t : Str}
    (h : trimSpace (a :: t) = a :: t) : isWS a = false := by
  cases h2 : isWS a with
  | false => rfl
  | true =>
    exfalso
    have h3 : (trimLeft (a :: t)).length ≤ t.length := by
      rw [trimLeft, List.dropWhile_cons, h2, if_pos rfl]
      exact (List.dropWhile_suffix isWS).length_le
    have h4 : (trimRight (trimLeft (a :: t))).length ≤ (trimLeft (a :: t)).length := by
      rw [trimRight]
      have := (List.dropWhile_suffix (l := (trimLeft (a :: t)).reverse) isWS).length_le
      simpa using this
    have h5 : (trimSpace (a :: t)).length < (a :: t).length := by
      rw [trimSpace]
      simp only [List.length_cons]
      omega
    rw [h] at h5
    omega

/-- A nonempty string unchanged by `trimSpace` absorbs one appended
space. -/
theorem trimSpace_append_space {M : Str} (hM : trimSpace M = M) (hne : M ≠ []) :
    trimSpace (M ++ [' ']) = M := by
  obtain ⟨a, t, rfl⟩ : ∃ a t, M = a :: t := by
    cases M with
    | nil => exact absurd rfl hne
    | cons a t => exact ⟨a, t, rfl⟩
  have ha : isWS a = false := head_not_ws_of_trimSpace_self hM
  have hL : trimLeft (a :: t) = a :: t := by
    rw [trimLeft, List.dropWhile_cons, ha]
    simp
  have hR : trimRight (a :: t) = a :: t := by
    have h0 := hM
    rw [trimSpace, hL] at h0
    exact h0
  have hL2 : trimLeft ((a :: t) ++ [' ']) = (a :: t) ++ [' '] := by
    rw [trimLeft, List.cons_append, List.dropWhile_cons, ha]
    simp
  have hR2 : trimRight ((a :: t) ++ [' ']) = trimRight (a :: t) := by
    rw [trimRight, trimRight, List.reverse_append]
    have hws : isWS ' ' = true := by decide
    have hsp : List.dropWhile isWS ([' '].reverse ++ (a :: t).reverse) =
        List.dropWhile isWS (a :: t).reverse := by
      simp [ List.dropWhile_cons, hws]
    rw [hsp]
  rw [trimSpace, hL2, hR2, hR]

/-- The text before the appended separator contains no `=>` when the module
path does not. -/
theorem pre_no_sep {M : Str} (hM : containsSub M sepEqGtL = false) :
    containsSub (replaceSpL ++ (M ++ [' '])) sepEqGtL = false := by
  cases hc : containsSub (replaceSpL ++ (M ++ [' '])) sepEqGtL with
  | false => rfl
  | true =>
    exfalso
    have hinf := (containsSub_eq_true_iff _ _).mp hc
    rw [show sepEqGtL = ['=', '>'] from rfl] at hinf
    rcases infix_pair_append hinf with h | h | ⟨h1, -⟩
    · have : containsSub replaceSpL sepEqGtL = true := (containsSub_eq_true_iff _ _).mpr h
      exact absurd this (by decide)
    · rcases infix_pair_append h with h' | h' | ⟨-, h2'⟩
      · have : containsSub M sepEqGtL = true := (containsSub_eq_true_iff _ _).mpr h'
        rw [hM] at this
        cases this
      · have : containsSub [' '] sepEqGtL = true := (containsSub_eq_true_iff _ _).mpr h'
        exact absurd this (by decide)
      · simp at h2'
    · exact absurd h1 (by decide)

/-- `extractReplacePath` on a well-formed replace line extracts exactly the
module path. -/
theorem extractReplacePath_boundary {M tail : Str} (hne : M ≠ [])
    (hself : trimSpace M = M) (hsep : containsSub M sepEqGtL = false) :
    extractReplacePath (replaceSpL ++ (M ++ (' ' :: '=' :: '>' :: tail))) = M := by
  have hpre : containsSub (replaceSpL ++ (M ++ [' '])) sepEqGtL = false := pre_no_sep hsep
  have hform : replaceSpL ++ (M ++ (' ' :: '=' :: '>' :: tail)) =
      (replaceSpL ++ (M ++ [' '])) ++ '=' :: '>' :: tail := by
    simp
  rw [hform]
  simp only [extractReplacePath]
  rw [splitOnSub_boundary hpre]
  have hlen : ¬(((replaceSpL ++ (M ++ [' '])) ::
      splitOnSubAux sepEqGtL [] tail 0).length < 2) := by
    have := splitOnSubAux_ne_nil sepEqGtL tail [] 0
    cases h : splitOnSubAux sepEqGtL [] tail 0 with
    | nil => exact absurd h this
    | cons p ps => simp
  rw [if_neg hlen]
  rw [ List.headD_cons]
  rw [trimPrefixStr, if_pos (repl_pre_repl _), List.drop_left]
  exact trimSpace_append_space hself hne

/-- Trimming a replace line only normalises its tail after `=>`. -/
theorem trimSpace_replaceLine_shape (M L : Str) :
    ∃ tail, trimSpace (replaceSpL ++ (M ++ (' ' :: '=' :: '>' :: (' ' :: L)))) =
      replaceSpL ++ (M ++ (' ' :: '=' :: '>' :: tail)) := by
  have hX : replaceSpL ++ (M ++ (' ' :: '=' :: '>' :: (' ' :: L))) =
      (replaceSpL ++ (M ++ [' ', '='])) ++ '>' :: (' ' :: L) := by
    simp
  have hL : trimLeft ((replaceSpL ++ (M ++ [' ', '='])) ++ '>' :: (' ' :: L)) =
      (replaceSpL ++ (M ++ [' ', '='])) ++ '>' :: (' ' :: L) := by
    rw [trimLeft]
    rw [show (replaceSpL ++ (M ++ [' ', '='])) ++ '>' :: (' ' :: L) =
      'r' :: (['e', 'p', 'l', 'a', 'c', 'e', ' '] ++ (M ++ [' ', '=']) ++ '>' :: (' ' :: L))
      from by simp [replaceSpL]]
    have hr : isWS 'r' = false := by decide
    rw [ List.dropWhile_cons, hr]
    simp
  obtain ⟨Z, hZ⟩ := trimRight_append_shape (replaceSpL ++ (M ++ [' ', '='])) (' ' :: L)
  refine ⟨Z, ?_⟩
  rw [hX, trimSpace, hL, hZ]
  simp
/-- The trimmed string occurs in the original. -/
theorem trimSpace_isInfixOfOrig (l : Str) : trimSpace l <:+: l := by
  have h1 : trimLeft l <:+ l := List.dropWhile_suffix isWS
  have h2 : trimRight (trimLeft l) <+: trimLeft l := by
    rw [trimRight]
    have h3 : List.dropWhile isWS (trimLeft l).reverse <:+ (trimLeft l).reverse :=
      List.dropWhile_suffix isWS
    rw [show List.dropWhile isWS (trimLeft l).reverse =
      (List.dropWhile isWS (trimLeft l).reverse).reverse.reverse from by simp] at h3
    exact List.reverse_suffix.mp h3
  exact h2.isInfix.trans h1.isInfix

/-- Stripping the comment cannot introduce an occurrence of `indirect`. -/
theorem stripComment_contains_indirect_false {line : Str}
    (h : containsSub line indirectL = false) :
    containsSub (match indexOfSubstr slashSlashL line with
      | some idx => trimSpace (line.take idx)
      | none => line) indirectL = false := by
  cases hidx : indexOfSubstr slashSlashL line with
  | none => exact h
  | some idx =>
    cases hc : containsSub (trimSpace (line.take idx)) indirectL with
    | false => rfl
    | true =>
      exfalso
      have hinf := (containsSub_eq_true_iff _ _).mp hc
      have h2 : indirectL <:+: line :=
        hinf.trans ((trimSpace_isInfixOfOrig _).trans (List.take_prefix idx line).isInfix)
      have h3 := (containsSub_eq_true_iff _ _).mpr h2
      rw [h] at h3
      cases h3

/-- Claim C5: resolver precedence.  If the versioned candidate
`<gopath>/src/<modulePath>` exists, `findLocalPath` returns it, whatever the
version-stripped candidate would say; and when the versioned candidate does
not exist and stripping does not change the path, the resolver fails without
ever returning a stripped path. -/
theorem claim_C5 (gopath modulePath : Str) (statOk : Str → Bool) :
    (statOk (joinPath (joinPath gopath srcL) modulePath) = true →
      findLocalPath gopath statOk modulePath =
        Except.ok (joinPath (joinPath gopath srcL) modulePath)) ∧
    (statOk (joinPath (joinPath gopath srcL) modulePath) = false →
      removeVersionFromPath modulePath = modulePath →
      findLocalPath gopath statOk modulePath =
        Except.error (notFoundMsgL ++ joinPath (joinPath gopath srcL) modulePath ++
          andSepL ++ joinPath (joinPath gopath srcL) modulePath)) := by
  constructor
  · intro h
    simp [findLocalPath, h]
  · intro h hbase
    simp [findLocalPath, h, hbase]

/-- Claim C5 witness: with both candidates present the versioned one is
returned. -/
theorem claim_C5_witness :
    findLocalPath ['/', 'g'] (fun _ => true) ['p'] =
      Except.ok (joinPath (joinPath ['/', 'g'] srcL) ['p']) :=
  (claim_C5 ['/', 'g'] ['p'] (fun _ => true)).1 rfl

/-- Claim C6: when neither candidate exists, the resolver returns the
NotFound error, whose message contains both probed candidate paths, and no
local path. -/
theorem claim_C6 (gopath modulePath : Str) (statOk : Str → Bool)
    (h1 : statOk (joinPath (joinPath gopath srcL) modulePath) = false)
    (h2 : statOk (joinPath (joinPath gopath srcL) (removeVersionFromPath modulePath)) = false) :
    findLocalPath gopath statOk modulePath =
      Except.error (notFoundMsgL ++ joinPath (joinPath gopath srcL) modulePath ++
        andSepL ++ joinPath (joinPath gopath srcL) (removeVersionFromPath modulePath)) ∧
    containsSub (notFoundMsgL ++ joinPath (joinPath gopath srcL) modulePath ++
        andSepL ++ joinPath (joinPath gopath srcL) (removeVersionFromPath modulePath))
      (joinPath (joinPath gopath srcL) modulePath) = true ∧
    containsSub (notFoundMsgL ++ joinPath (joinPath gopath srcL) modulePath ++
        andSepL ++ joinPath (joinPath gopath srcL) (removeVersionFromPath modulePath))
      (joinPath (joinPath gopath srcL) (removeVersionFromPath modulePath)) = true := by
  refine ⟨?_, ?_, ?_⟩
  · by_cases hb : removeVersionFromPath modulePath = modulePath
    · simp [findLocalPath, h1, hb]
    · simp [findLocalPath, h1, h2, hb]
  · apply (containsSub_eq_true_iff _ _).mpr
    exact ⟨notFoundMsgL, andSepL ++ joinPath (joinPath gopath srcL)
      (removeVersionFromPath modulePath), by simp⟩
  · apply (containsSub_eq_true_iff _ _).mpr
    exact ⟨notFoundMsgL ++ joinPath (joinPath gopath srcL) modulePath ++ andSepL,
      [], by simp⟩

/-- Claim C6 witness: concrete resolver failure naming both candidates. -/
theorem claim_C6_witness :
    findLocalPath ['/', 'g'] (fun _ => false) ['p'] =
      Except.error (notFoundMsgL ++ joinPath (joinPath ['/', 'g'] srcL) ['p'] ++
        andSepL ++ joinPath (joinPath ['/', 'g'] srcL) (removeVersionFromPath ['p'])) ∧
    containsSub (notFoundMsgL ++ joinPath (joinPath ['/', 'g'] srcL) ['p'] ++
        andSepL ++ joinPath (joinPath ['/', 'g'] srcL) (removeVersionFromPath ['p']))
      (joinPath (joinPath ['/', 'g'] srcL) ['p']) = true ∧
    containsSub (notFoundMsgL ++ joinPath (joinPath ['/', 'g'] srcL) ['p'] ++
        andSepL ++ joinPath (joinPath ['/', 'g'] srcL) (removeVersionFromPath ['p']))
      (joinPath (joinPath ['/', 'g'] srcL) (removeVersionFromPath ['p'])) = true :=
  claim_C6 ['/', 'g'] ['p'] (fun _ => false) rfl rfl

/-- Claim C7: the filter output is exactly the in-order list of record
paths that are not in the replaced-set and contain the partial name as a
literal substring; membership is characterised accordingly (duplicates in
the input yield duplicates in the output, as the output is a pointwise
filter of the path list). -/
theorem claim_C7 (deps : List Dependency) (reps : List Str) (q : Str) :
    filterDependencies deps reps q =
      (deps.map Dependency.Path).filter (fun p => !reps.contains p && containsSub p q) ∧
    ∀ p, p ∈ filterDependencies deps reps q ↔
      (∃ d ∈ deps, d.Path = p) ∧ p ∉ reps ∧ q <:+: p :=
  ⟨filterDependencies_eq deps reps q, fun p => mem_filterDependencies_iff deps reps q p⟩

/-- Claim C10: with the empty partial name the filter returns every record
path not in the replaced-set, in the original order. -/
theorem claim_C10 (deps : List Dependency) (reps : List Str) :
    filterDependencies deps reps [] =
      (deps.map Dependency.Path).filter (fun p => !reps.contains p) ∧
    ∀ p, p ∈ filterDependencies deps reps [] ↔ (∃ d ∈ deps, d.Path = p) ∧ p ∉ reps := by
  constructor
  · rw [filterDependencies_eq]
    refine List.filter_congr ?_
    intro a _
    rw [containsSub_nil_pat, Bool.and_true]
  · intro p
    rw [mem_filterDependencies_iff]
    simp

/-- Claim C8: any line containing `indirect`, anywhere in the line including
inside a trailing comment, contributes no dependency record, in any parser
state; hence such entries are absent from `parseGoMod`'s record list. -/
theorem claim_C8 (st : ParseState) (line : Str)
    (h : containsSub line indirectL = true) :
    (processLine st line).dependencies = st.dependencies :=
  processLine_indirect_deps st line h

/-- Claim C8 witness: the concrete indirect-in-comment line adds no
record. -/
theorem claim_C8_witness :
    (processLine initState exIndirectLine).dependencies = initState.dependencies :=
  claim_C8 initState exIndirectLine (by decide)
/-- Claim C2 counterexample: on the line `foo v1.0.0 // indirect` the code
skips the line (the `indirect` check runs before comment stripping), while
the order stated in the claim would strip the comment first and produce a
record. -/
theorem claim_C2_counterexample :
    parseRequireLine exIndirectLine = none ∧
    parseRequireLineSpecC2 exIndirectLine =
      some ⟨['f', 'o', 'o'], ['v', '1', '.', '0', '.', '0']⟩ := by
  constructor
  · decide
  · decide

/-- Claim C2 (amended): the require-line parser first skips the line if the
full line, trailing comment included, contains `indirect`; on lines free of
`indirect` it behaves exactly as the claim describes (strip comment, split
on whitespace, record iff at least two tokens, no error otherwise). -/
theorem claim_C2_amended (line : Str) :
    (containsSub line indirectL = true → parseRequireLine line = none) ∧
    (containsSub line indirectL = false →
      parseRequireLine line = parseRequireLineSpecC2 line) := by
  constructor
  · intro h
    exact parseRequireLine_indirect h
  · intro h
    have h2 := stripComment_contains_indirect_false h
    simp only [parseRequireLine, parseRequireLineSpecC2, h, h2]

/-- Claim C2 amended witness: concrete instances of both halves. -/
theorem claim_C2_amended_witness :
    parseRequireLine (['x', ' '] ++ indirectL) = none ∧
    parseRequireLine ['a', ' ', 'b', ' ', '/', '/', 'c'] =
      parseRequireLineSpecC2 ['a', ' ', 'b', ' ', '/', '/', 'c'] :=
  ⟨(claim_C2_amended (['x', ' '] ++ indirectL)).1 (by decide),
   (claim_C2_amended ['a', ' ', 'b', ' ', '/', '/', 'c']).2 (by decide)⟩

/-- Claim C1 counterexample: in the manifest
`require (\nreplace A => B\n)\nrequire A v1.0.0` the replace line sits
inside the require block, so `A` is not in the replaced-set, and the filter
does return `A`. -/
theorem claim_C1_counterexample :
    ¬(['A'] ∈ (parseGoMod exReplaceInBlockText).2) ∧
    ['A'] ∈ filterDependencies (parseGoMod exReplaceInBlockText).1
      (parseGoMod exReplaceInBlockText).2 ['A'] := by
  constructor
  · decide
  · decide

/-- Claim C1 (amended): if a manifest line whose trimmed text starts with
`replace ` and has a nonempty extracted left side is processed while the
parser is outside a require block, then that extracted path is in the
replaced-set produced by parse, and the filter never includes it in its
result, for any partial name. -/
theorem claim_C1_amended (content : Str) (pre : List Str) (line : Str)
    (post : List Str)
    (hsplit : splitLines content = pre ++ line :: post)
    (hstate : (pre.foldl processLine initState).inRequire = false)
    (hpre : replaceSpL.isPrefixOf (trimSpace line) = true)
    (hpath : extractReplacePath (trimSpace line) ≠ []) :
    extractReplacePath (trimSpace line) ∈ (parseGoMod content).2 ∧
    ∀ q, extractReplacePath (trimSpace line) ∉
      filterDependencies (parseGoMod content).1 (parseGoMod content).2 q := by
  have hmem : extractReplacePath (trimSpace line) ∈ (parseGoMod content).2 := by
    show extractReplacePath (trimSpace line) ∈
      ((splitLines content).foldl processLine initState).replaces
    rw [hsplit, List.foldl_append, List.foldl_cons]
    apply foldl_replaces_subset
    rw [processLine_replace _ _ hstate hpre hpath]
    exact List.mem_insert_self _ _
  refine ⟨hmem, ?_⟩
  intro q hq
  rw [mem_filterDependencies_iff] at hq
  exact hq.2.1 hmem

/-- Claim C1 amended witness: a top-level `replace A => B` line is
collected and never offered by the filter. -/
theorem claim_C1_amended_witness :
    ['A'] ∈ (parseGoMod (replaceSpL ++ ['A', ' ', '=', '>', ' ', 'B'])).2 ∧
    ['A'] ∉ filterDependencies
      (parseGoMod (replaceSpL ++ ['A', ' ', '=', '>', ' ', 'B'])).1
      (parseGoMod (replaceSpL ++ ['A', ' ', '=', '>', ' ', 'B'])).2 ['A'] := by
  have h := claim_C1_amended (replaceSpL ++ ['A', ' ', '=', '>', ' ', 'B'])
    [] (replaceSpL ++ ['A', ' ', '=', '>', ' ', 'B']) [] (by decide) rfl
    (by decide) (by decide)
  exact ⟨h.1, h.2 ['A']⟩
/-- Claim C4 counterexample: for the manifest `"require ("` (which has no
replace directive for `M`), appending the directive and re-parsing does not
put `M` in the replaced-set, because the appended line is swallowed by the
unclosed require block. -/
theorem claim_C4_counterexample :
    ¬(['M'] ∈ (parseGoMod exOpenBlockText).2) ∧
    ¬(['M'] ∈ (parseGoMod (applyReplaceText exOpenBlockText ['M'] ['.', '.', '/', 'm'])).2) := by
  constructor
  · decide
  · decide

/-- Claim C4 (amended): the round-trip holds provided the manifest's last
require block is closed (parsing ends outside a require block), the module
path is nonempty, carries no surrounding whitespace, contains neither `=>`
nor a newline, and the local path contains no newline. -/
theorem claim_C4_amended (text M L : Str)
    (hstate : ((splitLines text).foldl processLine initState).inRequire = false)
    (hne : M ≠ [])
    (hself : trimSpace M = M)
    (hsep : containsSub M sepEqGtL = false)
    (hMnl : '\n' ∉ M)
    (hLnl : '\n' ∉ L)
    (_hno : M ∉ (parseGoMod text).2) :
    M ∈ (parseGoMod (applyReplaceText text M L)).2 := by
  have heq : applyReplaceText text M L =
      text ++ '\n' :: ((replaceSpL ++ (M ++ (' ' :: '=' :: '>' :: (' ' :: L)))) ++ ['\n']) := by
    simp [applyReplaceText, replaceDirective, spEqGtSpL]
  have hnl : '\n' ∉ replaceSpL ++ (M ++ (' ' :: '=' :: '>' :: (' ' :: L))) := by
    intro hm
    rcases List.mem_append.mp hm with hm | hm
    · revert hm
      decide
    rcases List.mem_append.mp hm with hm | hm
    · exact hMnl hm
    rcases List.mem_cons.mp hm with hm | hm
    · cases hm
    rcases List.mem_cons.mp hm with hm | hm
    · cases hm
    rcases List.mem_cons.mp hm with hm | hm
    · cases hm
    rcases List.mem_cons.mp hm with hm | hm
    · cases hm
    · exact hLnl hm
  have hlines : splitLines (applyReplaceText text M L) =
      splitLines text ++
        ((replaceSpL ++ (M ++ (' ' :: '=' :: '>' :: (' ' :: L)))) :: [[]]) := by
    rw [heq, splitLines_append_sep]
    rw [show (replaceSpL ++ (M ++ (' ' :: '=' :: '>' :: (' ' :: L)))) ++ ['\n'] =
      (replaceSpL ++ (M ++ (' ' :: '=' :: '>' :: (' ' :: L)))) ++ '\n' :: [] from rfl]
    rw [splitLines_append_sep, splitLines_no_sep hnl]
    rfl
  show M ∈ ((splitLines (applyReplaceText text M L)).foldl processLine initState).replaces
  rw [hlines, List.foldl_append, List.foldl_cons, List.foldl_cons, List.foldl_nil]
  apply processLine_replaces_subset
  obtain ⟨tail, htail⟩ := trimSpace_replaceLine_shape M L
  have hpre : replaceSpL.isPrefixOf
      (trimSpace (replaceSpL ++ (M ++ (' ' :: '=' :: '>' :: (' ' :: L))))) = true := by
    rw [htail]
    exact repl_pre_repl _
  have hpath : extractReplacePath
      (trimSpace (replaceSpL ++ (M ++ (' ' :: '=' :: '>' :: (' ' :: L))))) = M := by
    rw [htail]
    exact extractReplacePath_boundary hne hself hsep
  rw [processLine_replace _ _ hstate hpre (by rw [hpath]; exact hne)]
  rw [hpath]
  exact List.mem_insert_self _ _

/-- Claim C4 amended witness: the round-trip on the one-line manifest
`"x"`. -/
theorem claim_C4_amended_witness :
    ['M'] ∈ (parseGoMod (applyReplaceText ['x'] ['M'] ['.', '.', '/', 'm'])).2 :=
  claim_C4_amended ['x'] ['M'] ['.', '.', '/', 'm'] (by decide) (by decide)
    (by decide) (by decide) (by decide) (by decide) (by decide)
/-- Claim C3 counterexample: a concrete successful invocation that reaches
the write step performs two reads of `go.mod`, not one (`main` reads it and
`replaceInGoMod` reads it again). -/
theorem claim_C3_counterexample :
    exMainRun.1 = Outcome.success ['f', 'o', 'o'] ['/', 'g', '/', 's', 'r', 'c', '/', 'f', 'o', 'o'] ∧
    exMainRun.2.trace.count (FileOp.readF goModPath) ≠ 1 := by
  constructor
  · decide
  · decide

/-- Claim C3 (amended): every successful invocation that reaches the write
step performs exactly two reads of the manifest (one in `main`, one inside
the writer) and one write (a temp-file write followed by the atomic
rename); the content the directive is appended to is the content returned
by the writer's own (second) read, which in this sequential model equals
the first. -/
theorem claim_C3_amended (partialName gopath content sel lp : Str)
    (statOk : Str → Bool) (select : List Str → Except Str Str) (w : World)
    (hfile : w.files.lookup goModPath = some content)
    (hwf : w.writeFails = false) (hrf : w.renameFails = false)
    (htrace : w.trace = [])
    (hmatched : (filterDependencies (parseGoMod content).1 (parseGoMod content).2
      partialName).isEmpty = false)
    (hsel : select (filterDependencies (parseGoMod content).1 (parseGoMod content).2
      partialName) = Except.ok sel)
    (hresolve : findLocalPath gopath statOk sel = Except.ok lp) :
    (mainRun partialName gopath statOk select true w).1 = Outcome.success sel lp ∧
    (mainRun partialName gopath statOk select true w).2.trace =
      [FileOp.readF goModPath, FileOp.readF goModPath,
       FileOp.writeF goModTmpPath (content ++ replaceDirective sel lp),
       FileOp.renameF goModTmpPath goModPath] := by
  have hmain : mainRun partialName gopath statOk select true w =
      (Outcome.success sel lp,
        (replaceInGoMod sel lp
          { w with trace := w.trace ++ [FileOp.readF goModPath] }).2) := by
    simp [mainRun, readFileW, hfile, hmatched, hsel, hresolve]
    simp [replaceInGoMod, readFileW, writeFileW, renameFileW, hfile, hwf, hrf,
      List.lookup_cons_self, setFile, removeFile]
  rw [hmain]
  refine ⟨rfl, ?_⟩
  simp [replaceInGoMod, readFileW, writeFileW, renameFileW, hfile, hwf, hrf,
    setFile, removeFile, htrace, applyReplaceText, List.lookup_cons_self]
/-- Claim C3 amended witness: the concrete run on `exWorld`. -/
theorem claim_C3_amended_witness :
    (mainRun ['f', 'o', 'o'] ['/', 'g'] (fun _ => true)
      (fun m => Except.ok (m.headD [])) true exWorld).1 =
      Outcome.success ['f', 'o', 'o'] (joinPath (joinPath ['/', 'g'] srcL) ['f', 'o', 'o']) ∧
    (mainRun ['f', 'o', 'o'] ['/', 'g'] (fun _ => true)
      (fun m => Except.ok (m.headD [])) true exWorld).2.trace =
      [FileOp.readF goModPath, FileOp.readF goModPath,
       FileOp.writeF goModTmpPath (exSimpleManifest ++
         replaceDirective ['f', 'o', 'o'] (joinPath (joinPath ['/', 'g'] srcL) ['f', 'o', 'o'])),
       FileOp.renameF goModTmpPath goModPath] :=
  claim_C3_amended ['f', 'o', 'o'] ['/', 'g'] exSimpleManifest ['f', 'o', 'o']
    (joinPath (joinPath ['/', 'g'] srcL) ['f', 'o', 'o']) (fun _ => true)
    (fun m => Except.ok (m.headD [])) exWorld (by decide) rfl rfl rfl (by decide)
    rfl rfl

/-- Looking up a different key ignores a removed entry. -/
theorem lookup_removeFile_ne {fs : List (Str × Str)} {p q : Str}
    (h : (q == p) = false) : (removeFile fs p).lookup q = fs.lookup q := by
  induction fs with
  | nil => rfl
  | cons e rest ih =>
    obtain ⟨k, v⟩ := e
    simp only [removeFile, List.filter_cons] at *
    by_cases hk : (k == p) = true
    · have hkp : k = p := by simpa using hk
      have hqk : (q == k) = false := by rw [hkp]; exact h
      simp [hk, List.lookup, hqk, ih]
    · have hk' : (k == p) = false := by
        cases hkk : (k == p)
        · rfl
        · exact absurd hkk hk
      simp only [hk', Bool.not_false, if_pos rfl, List.lookup]
      cases hqk : (q == k)
      · simp [ih]
      · simp
/-- Setting one path leaves other lookups unchanged. -/
theorem lookup_setFile_ne {fs : List (Str × Str)} {p q c : Str}
    (h : (q == p) = false) : (setFile fs p c).lookup q = fs.lookup q := by
  simp only [setFile, List.lookup, h]
  exact lookup_removeFile_ne h

/-- Setting a path makes its lookup return the new content. -/
theorem lookup_setFile_self (fs : List (Str × Str)) (p c : Str) :
    (setFile fs p c).lookup p = some c := by
  simp [setFile, List.lookup]

/-- Claim C9: the writer appends the directive to the content it read,
writes the full new content to `go.mod.tmp` and renames it over `go.mod`;
on any error outcome (read, temp write or rename failure) it reports the
error and `go.mod` is unchanged; write failure and rename failure both
produce errors. -/
theorem claim_C9 (module localPath : Str) (w : World) :
    (∀ e, (replaceInGoMod module localPath w).1 = Except.error e →
      (replaceInGoMod module localPath w).2.files.lookup goModPath =
        w.files.lookup goModPath) ∧
    (w.writeFails = true → ∃ e, (replaceInGoMod module localPath w).1 = Except.error e) ∧
    (w.renameFails = true → ∃ e, (replaceInGoMod module localPath w).1 = Except.error e) ∧
    (∀ c, w.files.lookup goModPath = some c → w.writeFails = false →
      w.renameFails = false →
      (replaceInGoMod module localPath w).1 = Except.ok () ∧
      (replaceInGoMod module localPath w).2.files.lookup goModPath =
        some (c ++ replaceDirective module localPath) ∧
      (replaceInGoMod module localPath w).2.trace =
        w.trace ++ [FileOp.readF goModPath,
          FileOp.writeF goModTmpPath (c ++ replaceDirective module localPath),
          FileOp.renameF goModTmpPath goModPath]) := by
  have htmp : ((goModPath == goModTmpPath) : Bool) = false := by decide
  refine ⟨?_, ?_, ?_, ?_⟩
  · intro e he
    cases hlook : w.files.lookup goModPath with
    | none => simp [replaceInGoMod, readFileW, hlook]
    | some c =>
      by_cases hw : w.writeFails
      · simp [replaceInGoMod, readFileW, writeFileW, hlook, hw]
      · by_cases hr : w.renameFails
        · simp only [replaceInGoMod, readFileW, writeFileW, renameFileW, hlook, hw,
            Bool.false_eq_true, if_false, hr, if_true, if_pos rfl]
          simp [lookup_setFile_ne htmp, hlook]
        · exfalso
          simp [replaceInGoMod, readFileW, writeFileW, renameFileW, hlook, hw, hr,
            lookup_setFile_self] at he
  · intro hw
    cases hlook : w.files.lookup goModPath with
    | none =>
      exact ⟨failedReadL ++ noSuchFileL, by simp [replaceInGoMod, readFileW, hlook]⟩
    | some c =>
      exact ⟨failedWriteTmpL ++ writeErrL,
        by simp [replaceInGoMod, readFileW, writeFileW, hlook, hw]⟩
  · intro hr
    cases hlook : w.files.lookup goModPath with
    | none =>
      exact ⟨failedReadL ++ noSuchFileL, by simp [replaceInGoMod, readFileW, hlook]⟩
    | some c =>
      by_cases hw : w.writeFails
      · exact ⟨failedWriteTmpL ++ writeErrL,
          by simp [replaceInGoMod, readFileW, writeFileW, hlook, hw]⟩
      · exact ⟨failedRenameL ++ renameErrL,
          by simp [replaceInGoMod, readFileW, writeFileW, renameFileW,
            hlook, hw, hr, lookup_setFile_self]⟩
  · intro c hc hw hr
    refine ⟨?_, ?_, ?_⟩
    · simp [replaceInGoMod, readFileW, writeFileW, renameFileW, hc, hw, hr,
        lookup_setFile_self, applyReplaceText]
    · simp [replaceInGoMod, readFileW, writeFileW, renameFileW, hc, hw, hr,
        lookup_setFile_self, applyReplaceText]
    · simp [replaceInGoMod, readFileW, writeFileW, renameFileW, hc, hw, hr,
        lookup_setFile_self, applyReplaceText]

/-- Claim C9 witness: a concrete successful write and a concrete failing
write leaving the manifest untouched. -/
theorem claim_C9_witness :
    ((replaceInGoMod ['m'] ['l'] exWorldSmall).1 = Except.ok () ∧
      (replaceInGoMod ['m'] ['l'] exWorldSmall).2.files.lookup goModPath =
        some (['x'] ++ replaceDirective ['m'] ['l'])) ∧
    (∃ e, (replaceInGoMod ['m'] ['l'] exWorldWriteFails).1 = Except.error e) :=
  ⟨⟨((claim_C9 ['m'] ['l'] exWorldSmall).2.2.2 ['x'] rfl rfl rfl).1,
    ((claim_C9 ['m'] ['l'] exWorldSmall).2.2.2 ['x'] rfl rfl rfl).2.1⟩,
   (claim_C9 ['m'] ['l'] exWorldWriteFails).2.1 rfl⟩
